import Mathlib

/-!
Shallow embedding of the curve-analysis engine of ECC_Analyzer_Pro
(src/app/core/validators.py, src/app/core/algorithms.py,
src/app/core/statistics.py), over exact rational arithmetic.

Modelling conventions:
* Python floats are modelled as `ℚ`; `NaN`/`Inf` are not representable in
  `ℚ`, so the `np.isfinite` masks of the source are the identity on every
  representable input (the corresponding size re-checks are still embedded).
* `int(n * 0.3)`, `int(n * 0.02)`, `int(n * 0.1)` and `n // 10` on
  non-negative lengths are embedded as the exact floors `3*n/10`, `n/50`,
  `n/10` in `ℕ`; a double-rounding analysis of the binary constants shows
  the float expressions agree with these floors for every array length.
* The external SciPy smoother `savgol_filter` is an oracle parameter
  (`SavGol`); `none` models the exception path of the source's
  `try/except` (the fallback is a raw copy, as in the source).  The only
  fact ever assumed about it is that it preserves the length of its input,
  which is true of `savgol_filter`.
* `scipy.integrate.simpson` (the energy metric) and `np.std`-based plateau
  CV (an irrational square root) are downstream of every quantity the
  claims mention and are not part of the embedded result record.
* Python `raise ValueError` in the validator is embedded as
  `Except.error` with the spec's error taxonomy (`DimensionMismatch`,
  `InsufficientData`, `DegenerateRange`); the three `InsufficientData`
  sites of the source all map to the same constructor.
-/

namespace ECC

/-- Maximum of a list of rationals; `np.max` on a non-empty array
(the `[]` case is never used on an empty array by the embedded code paths
that mirror guarded `np.max` calls). -/
def listMax : List ℚ → ℚ
  | [] => 0
  | x :: xs => xs.foldl max x

/-- Minimum of a list of rationals (`np.min` on a non-empty array). -/
def listMin : List ℚ → ℚ
  | [] => 0
  | x :: xs => xs.foldl min x

/-- Embeds `np.argmax`: index of the first occurrence of the maximum value.
Returns `0` on the empty list (the source guards every call by a
non-emptiness check). -/
def np_argmax : List ℚ → ℕ
  | [] => 0
  | [_] => 0
  | x :: y :: rest =>
      let j := np_argmax (y :: rest)
      if x < (y :: rest).getD j 0 then j + 1 else 0

/-- Embeds `np.mean` of a list: sum divided by length (`0/0 = 0` on the empty
list; the source guards every call by a non-emptiness check). -/
def meanQ (l : List ℚ) : ℚ := l.sum / (l.length : ℚ)

/-- Error taxonomy of `validate_and_sort_data` (spec §7); the source
raises `ValueError` with distinct messages at each site. -/
inductive ValidationError where
  | DimensionMismatch
  | InsufficientData
  | DegenerateRange
deriving DecidableEq, Repr

/-- Keep the first occurrence of each distinct first component
(`np.unique(strain, return_index=True)` pairs each unique strain value
with the stress at its first occurrence). -/
def dedupFirst : List (ℚ × ℚ) → List (ℚ × ℚ)
  | [] => []
  | p :: rest => p :: dedupFirst (rest.filter (fun q => decide (q.1 ≠ p.1)))
termination_by l => l.length
decreasing_by
  simp only [List.length_cons]
  exact Nat.lt_succ_of_le (List.length_filter_le _ _)

/-- The sorted, strain-deduplicated pair list produced by step 3 of
`validate_and_sort_data`: `np.unique` returns the distinct strain values
sorted ascending, each paired (via `return_index`) with the stress at the
first occurrence of that strain. -/
def sortUniquePairs (strain stress : List ℚ) : List (ℚ × ℚ) :=
  List.insertionSort (fun a b : ℚ × ℚ => a.1 ≤ b.1) (dedupFirst (strain.zip stress))

/-- Step 3 of `validate_and_sort_data`: the arrays are reassigned to the
sorted unique view only `if unique_strain.size < strain.size or
np.any(np.diff(unique_indices) < 0)`; otherwise the (already sorted,
duplicate-free) originals are kept. -/
def uniqueReassign (strain stress : List ℚ) : List ℚ × List ℚ :=
  let uniq := sortUniquePairs strain stress
  let us := uniq.map Prod.fst
  let idxs := us.map (fun v => strain.indexOf v)
  if us.length < strain.length ∨ ¬ List.Chain' (fun a b : ℕ => a ≤ b) idxs then
    (us, uniq.map Prod.snd)
  else
    (strain, stress)

/-- Embeds `validate_and_sort_data` of src/app/core/validators.py.
The `np.isfinite` mask (step 2) is the identity over `ℚ` — every
representable value is finite — so only its size re-check appears; the
second `< 5` test below is that re-check. -/
def validate_and_sort_data (strain stress : List ℚ) :
    Except ValidationError (List ℚ × List ℚ) :=
  if strain.length ≠ stress.length then .error .DimensionMismatch
  else if strain.length < 5 then .error .InsufficientData
  else if strain.length < 5 then .error .InsufficientData
  else if (uniqueReassign strain stress).1.length < 5 then .error .InsufficientData
  else if (uniqueReassign strain stress).1.getLastD 0 - (uniqueReassign strain stress).1.headD 0
      < 1 / 1000000000 then .error .DegenerateRange
  else if listMax (uniqueReassign strain stress).2 - listMin (uniqueReassign strain stress).2
      < 1 / 1000000000 then .error .DegenerateRange
  else .ok (uniqueReassign strain stress)

/-- The numeric thresholds of `MaterialConstants`
(src/app/core/physics.py) consumed by the analysis pipeline. -/
structure Config where
  SMOOTH_WINDOW : ℕ
  ELASTIC_LOWER_RATIO : ℚ
  ELASTIC_UPPER_RATIO : ℚ
  ULTIMATE_STRAIN_RATIO : ℚ
  GAUGE_LENGTH_MM : ℚ
deriving DecidableEq, Repr

/-- The class-level defaults of `MaterialConstants`. -/
def defaultConfig : Config :=
  ⟨11, 1 / 10, 4 / 10, 17 / 20, 80⟩

/-- The state built by `BaseAnalyzer.__init__`: raw strain, raw stress and
the (Savitzky–Golay or fallback copy) smoothed stress. -/
structure AnalyzerState where
  raw_strain : List ℚ
  raw_stress : List ℚ
  smooth_stress : List ℚ
deriving DecidableEq, Repr

/-- Oracle for the external `scipy.signal.savgol_filter`
(data, window_length, polyorder); `none` is the exception path handled by
the source's `try/except`. -/
abbrev SavGol := List ℚ → ℕ → ℕ → Option (List ℚ)

/-- Embeds `BaseAnalyzer.__init__`: for at most 3 stress points the raw values
are kept verbatim (compressive fast path, no validation and no
smoothing); otherwise the curve is validated, the strain is divided by
100 when its maximum exceeds 1 (percent-strain heuristic), and the stress
is smoothed when the curve is longer than the (odd-forced) window. -/
def mkAnalyzer (sg : SavGol) (cfg : Config) (strain_arr stress_arr : List ℚ) :
    Except ValidationError AnalyzerState :=
  if stress_arr.length ≤ 3 then .ok ⟨strain_arr, stress_arr, stress_arr⟩
  else
    match validate_and_sort_data strain_arr stress_arr with
    | .error e => .error e
    | .ok (strain, stress) =>
      let strain' := if 1 < listMax strain then strain.map (fun v => v / 100) else strain
      let win0 := cfg.SMOOTH_WINDOW
      let win := if win0 % 2 = 0 then win0 + 1 else win0
      let smooth :=
        if win < stress.length then
          match sg stress win 3 with
          | some r => r
          | none => stress
        else stress
      .ok ⟨strain', stress, smooth⟩

/-- Embeds `BaseAnalyzer._calc_peak_robust`: `(idx_peak, stress_max,
strain_at_peak)`, the argmax of the smoothed stress with the raw strain
at that index; `(0, 0, 0)` on an empty curve. -/
def calcPeakRobust (st : AnalyzerState) : ℕ × ℚ × ℚ :=
  if st.raw_stress.length = 0 then (0, 0, 0)
  else
    let i := np_argmax st.smooth_stress
    (i, st.smooth_stress.getD i 0, st.raw_strain.getD i 0)

/-- Degree-1 least squares (`np.polyfit(x, y, 1)`): the closed-form
normal-equation solution.  `none` models the singular / exception case
(the source wraps the fit in `try/except`); for the embedded pipeline the
abscissae are pairwise-distinct validated strains, so the denominator is
nonzero whenever at least two points are fitted. -/
def polyfit1 (pts : List (ℚ × ℚ)) : Option (ℚ × ℚ) :=
  let n : ℚ := (pts.length : ℚ)
  let sx := (pts.map Prod.fst).sum
  let sy := (pts.map Prod.snd).sum
  let sxx := (pts.map (fun p => p.1 * p.1)).sum
  let sxy := (pts.map (fun p => p.1 * p.2)).sum
  let d := n * sxx - sx * sx
  if d = 0 then none
  else
    let slope := (n * sxy - sx * sy) / d
    some (slope, (sy - slope * sx) / n)

/-- "Fit a line; on failure report `(0, 0)`; floor the slope at `0`" —
the post-processing the source applies to `np.polyfit`'s output. -/
def fitLineFloored (pts : List (ℚ × ℚ)) : ℚ × ℚ :=
  match polyfit1 pts with
  | some sb => (max 0 sb.1, sb.2)
  | none => (0, 0)

/-- Embeds `BaseAnalyzer._calc_E_effective_regression`: band-restricted pre-peak
linear regression with a widened fallback band and a slope floor. -/
def calcEEffectiveRegression (cfg : Config) (st : AnalyzerState)
    (idx_peak : ℕ) (stress_max : ℚ) : ℚ × ℚ :=
  if st.raw_stress.length < 5 ∨ stress_max ≤ 0 then (0, 0)
  else
    let ll := cfg.ELASTIC_LOWER_RATIO * stress_max
    let lu := cfg.ELASTIC_UPPER_RATIO * stress_max
    let seg := (st.raw_strain.take idx_peak).zip (st.raw_stress.take idx_peak)
    let fit1 := seg.filter (fun p => decide (ll ≤ p.2 ∧ p.2 ≤ lu))
    let fit :=
      if fit1.length < 3 then
        seg.filter (fun p => decide (stress_max * (1 / 20) ≤ p.2 ∧ p.2 ≤ stress_max * (1 / 2)))
      else fit1
    if 2 < fit.length then fitLineFloored fit
    else (0, 0)

/-- Embeds `np.gradient(f, x)` with non-uniform abscissae: second-order central
differences in the interior, one-sided differences at both edges.
Division by zero yields `0` in `ℚ`, matching `np.nan_to_num(·, nan=0)`
applied by the caller; the embedded call sites use validated,
strictly-increasing strains, so no spacing is zero. -/
def npGradient (f x : List ℚ) : List ℚ :=
  (List.range f.length).map (fun i =>
    if i = 0 then (f.getD 1 0 - f.getD 0 0) / (x.getD 1 0 - x.getD 0 0)
    else if i = f.length - 1 then
      (f.getD i 0 - f.getD (i - 1) 0) / (x.getD i 0 - x.getD (i - 1) 0)
    else
      let hd := x.getD i 0 - x.getD (i - 1) 0
      let hs := x.getD (i + 1) 0 - x.getD i 0
      (-hs / (hd * (hd + hs))) * f.getD (i - 1) 0
        + ((hs - hd) / (hd * hs)) * f.getD i 0
        + (hd / (hs * (hd + hs))) * f.getD (i + 1) 0)

/-- Embeds `BaseAnalyzer._calc_tangent_modulus_curve`: all-zero for a pre-peak
segment shorter than 5, otherwise the gradient of smoothed stress by raw
strain, re-smoothed with window `max(5, len/10)` forced odd (the
`except` path returns the raw gradient). -/
def tangentModulusCurve (sg : SavGol) (st : AnalyzerState) (idx_peak : ℕ) : List ℚ :=
  if idx_peak < 5 then List.replicate idx_peak 0
  else
    let s := st.raw_strain.take idx_peak
    let f := st.smooth_stress.take idx_peak
    let dedx := npGradient f s
    let win0 := max 5 (dedx.length / 10)
    let win := if win0 % 2 = 0 then win0 + 1 else win0
    match sg dedx win 2 with
    | some r => r
    | none => dedx

/-- Embeds `BaseAnalyzer._calc_E_init_statistical`: search the first
`max(5, int(0.3·len))` tangent-modulus values, keep those strictly
between 1000 and 60000, return 0 when none survive, else the mean of the
largest `max(1, int(0.1·count))` survivors. -/
def calcEInitStatistical (dedx : List ℚ) : ℚ :=
  if dedx.length = 0 then 0
  else
    let limit_idx := max 5 (3 * dedx.length / 10)
    let sub := dedx.take limit_idx
    let valid := sub.filter (fun v => decide (1000 < v ∧ v < 60000))
    if valid.length = 0 then 0
    else
      let sorted := (List.insertionSort (fun a b : ℚ => a ≤ b) valid).reverse
      meanQ (sorted.take (max 1 (valid.length / 10)))

/-- The ultimate-state block of `TensileAnalyzer.run_analysis`: when the
curve extends more than 5 points past the peak, scan forward from
`idx_peak` on the smoothed curve for the first index below threshold
whose (non-empty) look-ahead window of length `max(10, int(0.02·len))`
also stays entirely below threshold; the loop's `else` clause (no break)
yields the last index; otherwise `idx_u` keeps its initial value
`idx_peak`. -/
def ultimateIdx (st : AnalyzerState) (idx_peak : ℕ) (threshold : ℚ) : ℕ :=
  if idx_peak + 5 < st.raw_stress.length then
    let look := max 10 (st.raw_stress.length / 50)
    match (List.range' idx_peak (st.smooth_stress.length - idx_peak)).find?
      (fun i =>
        decide (st.smooth_stress.getD i 0 < threshold) &&
        (let fut := (st.smooth_stress.drop i).take look
         !fut.isEmpty && decide (listMax fut < threshold))) with
    | some i => i
    | none => st.raw_stress.length - 1
  else idx_peak

/-- The first-crack block of `TensileAnalyzer.run_analysis` (dual
criterion): over indices `[0, min(len(dedx), idx_peak))`, the first index
whose deviation below the regression line exceeds
`max(0.05, 0.01·stress_max)`, whose tangent modulus is below
`0.85·E_init`, and whose stress exceeds `0.1·stress_max`; absent any,
`(stress_max, idx_peak)`. -/
def crackPair (st : AnalyzerState) (dedx : List ℚ)
    (E_eff intercept E_init stress_max : ℚ) (idx_peak : ℕ) : ℚ × ℕ :=
  let len_calc := min dedx.length idx_peak
  if 0 < len_calc then
    match (List.range len_calc).find? (fun i =>
      decide (E_eff * st.raw_strain.getD i 0 + intercept - st.raw_stress.getD i 0
                > max (1 / 20) (1 / 100 * stress_max)) &&
      decide (dedx.getD i 0 < 17 / 20 * E_init) &&
      decide (st.raw_stress.getD i 0 > 1 / 10 * stress_max)) with
    | some i => (st.raw_stress.getD i 0, i)
    | none => (stress_max, idx_peak)
  else (stress_max, idx_peak)

/-- The result record assembled by `TensileAnalyzer.run_analysis`.  The
strain-energy / fracture-energy entries (external `scipy` Simpson
integration) and the plateau CV (an irrational square root) are computed
strictly downstream of every field below and are omitted from the
embedding; no claim mentions them. -/
structure TensileResult where
  E_eff_GPa : ℚ
  E_init_GPa : ℚ
  first_crack_MPa : ℚ
  ultimate_stress_MPa : ℚ
  ultimate_strain_pct : ℚ
  hardening_capacity_pct : ℚ
  idx_peak : ℕ
  idx_cr : ℕ
  idx_u : ℕ
  E_intercept : ℚ
deriving DecidableEq, Repr

/-- Embeds `TensileAnalyzer.run_analysis`: peak location, effective and initial
moduli (with the effective-modulus floor), dual-criterion first-crack
detection, look-ahead ultimate-state detection, and derived metrics. -/
def run_analysis (cfg : Config) (sg : SavGol) (st : AnalyzerState) : TensileResult :=
  let pk := calcPeakRobust st
  let idx_peak := pk.1
  let stress_max := pk.2.1
  let reg := calcEEffectiveRegression cfg st idx_peak stress_max
  let E_eff := reg.1
  let intercept := reg.2
  let dedx := tangentModulusCurve sg st idx_peak
  let E_init0 := calcEInitStatistical dedx
  let E_init := if E_init0 < E_eff then E_eff else E_init0
  let cr := crackPair st dedx E_eff intercept E_init stress_max idx_peak
  let idx_u := ultimateIdx st idx_peak (cfg.ULTIMATE_STRAIN_RATIO * stress_max)
  let epsilon_u := st.raw_strain.getD idx_u 0
  let eps_fc := st.raw_strain.getD cr.2 0
  ⟨E_eff / 1000, E_init / 1000, cr.1, stress_max, epsilon_u * 100,
    max 0 (epsilon_u - eps_fc) * 100, idx_peak, cr.2, idx_u, intercept⟩

/-! ## Group statistics (src/app/core/statistics.py) -/

/-- A value stored in a per-sample result mapping.  `num` covers Python
`int` / `float` / numpy numeric values; every `ℚ` is finite, so the
source's `np.isfinite` test is the identity on representable numbers. -/
inductive JVal where
  | num : ℚ → JVal
  | jbool : Bool → JVal
  | jstr : String → JVal
  | null
deriving DecidableEq, Repr

/-- A result mapping (Python `dict`), as an association list. -/
abbrev Item := List (String × JVal)

/-- Per-key statistics emitted by the aggregator.  `np.std(·, ddof=1)` is
an irrational square root, so the embedding tracks its exact square
`sdSq`: the source's `{k}_sd` entry is `Real.sqrt sdSq` and is zero iff
`sdSq` is zero. -/
structure KeyStats where
  mean : ℚ
  sdSq : ℚ
deriving DecidableEq, Repr

/-- Python `k.startswith("_")`: the key's first character is an
underscore (character-level embedding of the string test). -/
def startsWithUnderscore (k : String) : Bool := k.data.head? == some ('_')

/-- Embeds `StatisticsCalculator.get_group_stats`: `none` models the source's
bare `{}` returns (empty input, or no non-empty item); otherwise the
`count` entry and, per candidate key, the mean / squared sample SD of
the numeric non-boolean finite values collected across all items, with
an explicit `(0, 0)` when no value survives. -/
def get_group_stats (data : List Item) : Option (ℕ × List (String × KeyStats)) :=
  if data.isEmpty then none
  else
    match data.find? (fun it => !it.isEmpty) with
    | none => none
    | some first =>
      let candidate_keys := (first.map Prod.fst).filter (fun k => !(startsWithUnderscore k))
      some (data.length, candidate_keys.map (fun k =>
        let vals := data.foldl (fun acc it =>
          match it.lookup k with
          | some (.num q) => acc ++ [q]
          | _ => acc) []
        if 0 < vals.length then
          let mean_val := meanQ vals
          let var_val :=
            if 1 < vals.length then
              ((vals.map (fun v => (v - mean_val) * (v - mean_val))).sum) / ((vals.length : ℚ) - 1)
            else 0
          (k, ⟨mean_val, var_val⟩)
        else (k, ⟨0, 0⟩)))

/-! ## Claim-side (spec-language) definitions, used to state the
functional-correctness claims as refinements of the embedded code. -/

/-- The candidate keys of a batch, as the spec words it: the keys of the
first non-empty item, with internal underscore-prefixed keys excluded. -/
def candidateKeys (data : List Item) : List String :=
  match data.find? (fun it => !it.isEmpty) with
  | none => []
  | some first => (first.map Prod.fst).filter (fun k => !(startsWithUnderscore k))

/-- The values that enter a key's statistics, as the spec words it: the
finite non-boolean numeric values of that key across all items. -/
def collectVals (data : List Item) (k : String) : List ℚ :=
  data.filterMap (fun it =>
    match it.lookup k with
    | some (.num q) => some q
    | _ => none)

/-- The statistics the spec prescribes for one key: mean and squared
sample standard deviation (divisor `n - 1`, zero when `n = 1`) when at
least one valid value exists, else an explicit `(0, 0)`. -/
def keyStatsSpec (data : List Item) (k : String) : KeyStats :=
  let vs := collectVals data k
  if vs = [] then ⟨0, 0⟩
  else
    ⟨meanQ vs,
      if 1 < vs.length then
        ((vs.map (fun v => (v - meanQ vs) * (v - meanQ vs))).sum) / ((vs.length : ℚ) - 1)
      else 0⟩

/-- Ultimate-state detection exactly as claim C3 states it: if the curve
has fewer than `idx_peak + 5` points then `idx_u = idx_peak`; otherwise
the first index `i ≥ idx_peak` whose smoothed value is below threshold
and whose look-ahead window of length `max(10, int(0.02·n))` starting at
`i` stays entirely below threshold; failing that, the last index. -/
def ultimateSpecClaim (smooth : List ℚ) (n idx_peak : ℕ) (threshold : ℚ) : ℕ :=
  if n < idx_peak + 5 then idx_peak
  else
    let look := max 10 (n / 50)
    match ((List.range n).drop idx_peak).find? (fun i =>
      decide (smooth.getD i 0 < threshold) &&
      decide (listMax ((smooth.drop i).take look) < threshold)) with
    | some i => i
    | none => n - 1

/-- The amended form of claim C3: the no-scan branch applies whenever the
curve has at most `idx_peak + 5` points (the code scans only when
`len > idx_peak + 5`); the scan itself is as the claim describes. -/
def ultimateSpecAmended (smooth : List ℚ) (n idx_peak : ℕ) (threshold : ℚ) : ℕ :=
  if n ≤ idx_peak + 5 then idx_peak
  else
    let look := max 10 (n / 50)
    match ((List.range n).drop idx_peak).find? (fun i =>
      decide (smooth.getD i 0 < threshold) &&
      decide (listMax ((smooth.drop i).take look) < threshold)) with
    | some i => i
    | none => n - 1

/-- Initial-modulus estimation exactly as claim C4 states it: search only
the first 30% of the tangent-modulus curve, keep values strictly between
1000 and 60000, return 0 when nothing survives, else the mean of the top
`max(1, int(0.1·count))` survivors. -/
def EInitSpecClaim (dedx : List ℚ) : ℚ :=
  let valid := (dedx.take (3 * dedx.length / 10)).filter (fun v => decide (1000 < v ∧ v < 60000))
  if valid = [] then 0
  else meanQ ((List.insertionSort (fun a b : ℚ => b ≤ a) valid).take (max 1 (valid.length / 10)))

/-- The amended form of claim C4: the searched region is the first
`max(5, int(0.3·len))` entries — at least the first 30% of the curve,
but never fewer than 5 entries. -/
def EInitSpecAmended (dedx : List ℚ) : ℚ :=
  if dedx = [] then 0
  else
    let valid :=
      (dedx.take (max 5 (3 * dedx.length / 10))).filter (fun v => decide (1000 < v ∧ v < 60000))
    if valid = [] then 0
    else meanQ ((List.insertionSort (fun a b : ℚ => b ≤ a) valid).take (max 1 (valid.length / 10)))

/-- The long-window smoothing oracle instance used by concrete
witnesses: all witness curves are shorter than the smoothing window, so
`savgol_filter` is never invoked on them and the oracle's value is
irrelevant; `none` (the exception path) is a legitimate instance. -/
def sgNone : SavGol := fun _ _ _ => none

/-! ## General lemmas about the embedded operations -/

theorem np_argmax_lt : ∀ (l : List ℚ), l ≠ [] → np_argmax l < l.length
  | [x], _ => by simp [np_argmax]
  | x :: y :: rest, _ => by
      have ih := np_argmax_lt (y :: rest) (by simp)
      simp only [np_argmax]
      split
      · simpa using Nat.succ_lt_succ ih
      · simp

theorem sum_lt_mul_of_forall_lt {b : ℚ} :
    ∀ (l : List ℚ), l ≠ [] → (∀ x ∈ l, x < b) → l.sum < b * l.length
  | [x], _, h => by simpa using h x (by simp)
  | x :: y :: rest, _, h => by
      have ih := sum_lt_mul_of_forall_lt (y :: rest) (by simp)
        (fun z hz => h z (List.mem_cons_of_mem x hz))
      have hx := h x (by simp)
      simp only [List.sum_cons, List.length_cons] at ih ⊢
      push_cast
      push_cast at ih
      nlinarith

theorem mul_lt_sum_of_forall_lt {a : ℚ} :
    ∀ (l : List ℚ), l ≠ [] → (∀ x ∈ l, a < x) → a * l.length < l.sum
  | [x], _, h => by simpa using h x (by simp)
  | x :: y :: rest, _, h => by
      have ih := mul_lt_sum_of_forall_lt (y :: rest) (by simp)
        (fun z hz => h z (List.mem_cons_of_mem x hz))
      have hx := h x (by simp)
      simp only [List.sum_cons, List.length_cons] at ih ⊢
      push_cast
      push_cast at ih
      nlinarith

theorem meanQ_lt {b : ℚ} {l : List ℚ} (hne : l ≠ []) (h : ∀ x ∈ l, x < b) :
    meanQ l < b := by
  have hlen : (0 : ℚ) < l.length := by
    have := List.length_pos.mpr hne
    exact_mod_cast this
  rw [meanQ, div_lt_iff₀ hlen]
  exact sum_lt_mul_of_forall_lt l hne h

theorem lt_meanQ {a : ℚ} {l : List ℚ} (hne : l ≠ []) (h : ∀ x ∈ l, a < x) :
    a < meanQ l := by
  have hlen : (0 : ℚ) < l.length := by
    have := List.length_pos.mpr hne
    exact_mod_cast this
  rw [meanQ, lt_div_iff₀ hlen]
  exact mul_lt_sum_of_forall_lt l hne h

theorem find?_congr_mem {α : Type} {p q : α → Bool} :
    ∀ (l : List α), (∀ a ∈ l, p a = q a) → l.find? p = l.find? q
  | [], _ => rfl
  | a :: l, h => by
      have ha : p a = q a := h a (by simp)
      by_cases hpa : p a = true
      · rw [List.find?_cons_of_pos _ hpa, List.find?_cons_of_pos _ (ha ▸ hpa)]
      · rw [List.find?_cons_of_neg _ hpa, List.find?_cons_of_neg _ (ha ▸ hpa)]
        exact find?_congr_mem l (fun x hx => h x (List.mem_cons_of_mem a hx))

theorem drop_range' : ∀ (m s n : ℕ), (List.range' s n).drop m = List.range' (s + m) (n - m)
  | 0, s, n => by simp
  | m + 1, s, 0 => by simp
  | m + 1, s, n + 1 => by
      rw [List.range'_succ, List.drop_succ_cons, drop_range' m (s + 1) n]
      congr 1 <;> omega

theorem drop_range (m n : ℕ) : (List.range n).drop m = List.range' m (n - m) := by
  rw [List.range_eq_range', drop_range' m 0 n, Nat.zero_add]

theorem if_lt_eq_max (a b : ℚ) : (if a < b then b else a) = max a b := by
  rcases lt_trichotomy a b with h | h | h <;> simp [max_def] <;> split_ifs <;> linarith

theorem insertionSort_reverse_eq (l : List ℚ) :
    (List.insertionSort (fun a b : ℚ => a ≤ b) l).reverse
      = List.insertionSort (fun a b : ℚ => b ≤ a) l := by
  haveI ht : IsTotal ℚ (fun a b : ℚ => b ≤ a) := ⟨fun a b => le_total b a⟩
  haveI htr : IsTrans ℚ (fun a b : ℚ => b ≤ a) := ⟨fun a b c h1 h2 => le_trans h2 h1⟩
  haveI ha : IsAntisymm ℚ (fun a b : ℚ => b ≤ a) := ⟨fun a b h1 h2 => le_antisymm h2 h1⟩
  apply List.eq_of_perm_of_sorted (r := fun a b : ℚ => b ≤ a)
  · exact (List.reverse_perm _).trans
      ((List.perm_insertionSort _ l).trans (List.perm_insertionSort _ l).symm)
  · rw [List.Sorted, List.pairwise_reverse]
    exact List.sorted_insertionSort _ l
  · exact List.sorted_insertionSort _ l

theorem fitLineFloored_fst_nonneg (pts : List (ℚ × ℚ)) : 0 ≤ (fitLineFloored pts).1 := by
  rcases h : polyfit1 pts with _ | ⟨s, b⟩ <;> simp [fitLineFloored, h]

theorem fitLineFloored_of_snd_zero (pts : List (ℚ × ℚ)) (h : ∀ p ∈ pts, p.2 = 0) :
    fitLineFloored pts = (0, 0) := by
  have hsy : (pts.map Prod.snd).sum = 0 :=
    List.sum_eq_zero (fun x hx => by
      obtain ⟨p, hp, rfl⟩ := List.mem_map.mp hx
      exact h p hp)
  have hsxy : (pts.map (fun p => p.1 * p.2)).sum = 0 :=
    List.sum_eq_zero (fun x hx => by
      obtain ⟨p, hp, rfl⟩ := List.mem_map.mp hx
      rw [h p hp, mul_zero])
  rw [fitLineFloored]
  rcases hp : polyfit1 pts with _ | ⟨s, b⟩
  · rfl
  · have : s = 0 ∧ b = 0 := by
      rw [polyfit1] at hp
      simp only [hsy, hsxy, mul_zero, zero_mul, sub_zero, zero_sub, neg_zero, zero_div] at hp
      split at hp
      · simp at hp
      · simp only [Option.some.injEq, Prod.mk.injEq] at hp
        exact ⟨hp.1.symm, hp.2.symm⟩
    obtain ⟨rfl, rfl⟩ := this
    simp

theorem crackPair_snd_le (st : AnalyzerState) (dedx : List ℚ)
    (E_eff intercept E_init stress_max : ℚ) (idx_peak : ℕ) :
    (crackPair st dedx E_eff intercept E_init stress_max idx_peak).2 ≤ idx_peak := by
  simp only [crackPair]
  split
  · split
    · rename_i i heq
      have hmem := List.mem_of_find?_eq_some heq
      rw [List.mem_range] at hmem
      show i ≤ idx_peak
      omega
    · exact le_rfl
  · exact le_rfl

theorem ultimateIdx_ge (st : AnalyzerState) (idx_peak : ℕ) (thr : ℚ) :
    idx_peak ≤ ultimateIdx st idx_peak thr := by
  simp only [ultimateIdx]
  split
  · rename_i hc
    split
    · rename_i i heq
      have hmem := List.mem_of_find?_eq_some heq
      rw [List.mem_range'] at hmem
      obtain ⟨k, hk, rfl⟩ := hmem
      omega
    · omega
  · exact le_rfl

theorem ultimateIdx_lt (st : AnalyzerState) (idx_peak : ℕ) (thr : ℚ)
    (hlen : st.smooth_stress.length = st.raw_stress.length)
    (hip : idx_peak < st.raw_stress.length) :
    ultimateIdx st idx_peak thr < st.raw_stress.length := by
  simp only [ultimateIdx]
  split
  · rename_i hc
    split
    · rename_i i heq
      have hmem := List.mem_of_find?_eq_some heq
      rw [List.mem_range'] at hmem
      obtain ⟨k, hk, rfl⟩ := hmem
      omega
    · omega
  · exact hip

theorem mkAnalyzer_smooth_length (sg : SavGol) (cfg : Config)
    (strain stress : List ℚ) (st : AnalyzerState)
    (hsg : ∀ l w p r, sg l w p = some r → r.length = l.length)
    (hmk : mkAnalyzer sg cfg strain stress = .ok st) :
    st.smooth_stress.length = st.raw_stress.length := by
  rw [mkAnalyzer] at hmk
  split at hmk
  · simp only [Except.ok.injEq] at hmk
    subst hmk
    rfl
  · split at hmk
    · exact absurd hmk (by simp)
    · rename_i s t
      simp only [Except.ok.injEq] at hmk
      subst hmk
      dsimp only
      generalize (if cfg.SMOOTH_WINDOW % 2 = 0 then cfg.SMOOTH_WINDOW + 1
        else cfg.SMOOTH_WINDOW) = win
      split
      · split
        · rename_i r hr
          exact hsg _ _ _ _ hr
        · rfl
      · rfl

/-- The code's ultimate-state block agrees with the amended spec-side
description on every state whose smoothed curve has the same length as
its stress curve (true of every constructed state). -/
theorem ultimateIdx_eq_spec (st : AnalyzerState) (idx_peak : ℕ) (thr : ℚ)
    (hlen : st.smooth_stress.length = st.raw_stress.length) :
    ultimateIdx st idx_peak thr
      = ultimateSpecAmended st.smooth_stress st.raw_stress.length idx_peak thr := by
  rw [ultimateIdx, ultimateSpecAmended]
  by_cases hc : idx_peak + 5 < st.raw_stress.length
  · rw [if_pos hc, if_neg (by omega)]
    rw [hlen, drop_range]
    have hfind := find?_congr_mem
      (l := List.range' idx_peak (st.raw_stress.length - idx_peak))
      (p := fun i =>
        decide (st.smooth_stress.getD i 0 < thr) &&
        (let fut := (st.smooth_stress.drop i).take (max 10 (st.raw_stress.length / 50))
         !fut.isEmpty && decide (listMax fut < thr)))
      (q := fun i =>
        decide (st.smooth_stress.getD i 0 < thr) &&
        decide (listMax ((st.smooth_stress.drop i).take
          (max 10 (st.raw_stress.length / 50))) < thr))
      (by
        intro i hi
        rw [List.mem_range'] at hi
        obtain ⟨k, hk, rfl⟩ := hi
        have hilt : idx_peak + 1 * k < st.smooth_stress.length := by omega
        have hfut : (st.smooth_stress.drop (idx_peak + 1 * k)).take
            (max 10 (st.raw_stress.length / 50)) ≠ [] := by
          rw [Ne, List.take_eq_nil_iff]
          rintro (h | h)
          · omega
          · rw [List.drop_eq_nil_iff] at h
            omega
        have hE : ((st.smooth_stress.drop (idx_peak + 1 * k)).take
            (max 10 (st.raw_stress.length / 50))).isEmpty = false := by
          rw [Bool.eq_false_iff]
          intro h
          exact hfut (List.isEmpty_iff.mp h)
        dsimp only
        rw [hE]
        simp)
    dsimp only
    rw [hfind]
  · rw [if_neg hc, if_pos (by omega)]

theorem dedupFirst_subset : ∀ (l : List (ℚ × ℚ)), dedupFirst l ⊆ l := by
  intro l
  induction l using dedupFirst.induct with
  | case1 => simp [dedupFirst]
  | case2 p rest ih =>
      rw [dedupFirst]
      intro x hx
      rcases List.mem_cons.mp hx with rfl | hx
      · exact List.mem_cons_self _ _
      · exact List.mem_cons_of_mem _ (List.mem_of_mem_filter (ih hx))

theorem dedupFirst_fst_nodup : ∀ (l : List (ℚ × ℚ)), ((dedupFirst l).map Prod.fst).Nodup := by
  intro l
  induction l using dedupFirst.induct with
  | case1 => simp [dedupFirst]
  | case2 p rest ih =>
      rw [dedupFirst, List.map_cons, List.nodup_cons]
      refine ⟨?_, ih⟩
      intro hmem
      obtain ⟨q, hq, hqe⟩ := List.mem_map.mp hmem
      have hq2 := dedupFirst_subset _ hq
      have hne := List.of_mem_filter hq2
      simp only [decide_eq_true_eq] at hne
      exact hne hqe

theorem dedupFirst_eq_self : ∀ (l : List (ℚ × ℚ)),
    (l.map Prod.fst).Nodup → dedupFirst l = l := by
  intro l
  induction l using dedupFirst.induct with
  | case1 => intro _; rw [dedupFirst]
  | case2 p rest ih =>
      intro h
      rw [List.map_cons, List.nodup_cons] at h
      obtain ⟨hp, hrest⟩ := h
      have hfil : rest.filter (fun q => decide (q.1 ≠ p.1)) = rest := by
        rw [List.filter_eq_self]
        intro q hq
        simp only [decide_eq_true_eq]
        intro hq1
        exact hp (List.mem_map.mpr ⟨q, hq, hq1⟩)
      rw [hfil] at ih
      rw [dedupFirst, hfil, ih hrest]

theorem dedupFirst_length_le : ∀ (l : List (ℚ × ℚ)), (dedupFirst l).length ≤ l.length := by
  intro l
  induction l using dedupFirst.induct with
  | case1 => simp [dedupFirst]
  | case2 p rest ih =>
      rw [dedupFirst]
      simp only [List.length_cons]
      have := List.length_filter_le (fun q : ℚ × ℚ => decide (q.1 ≠ p.1)) rest
      omega

theorem dedupFirst_eq_of_length : ∀ (l : List (ℚ × ℚ)),
    l.length ≤ (dedupFirst l).length → dedupFirst l = l := by
  intro l
  induction l using dedupFirst.induct with
  | case1 => intro _; rw [dedupFirst]
  | case2 p rest ih =>
      intro h
      rw [dedupFirst] at h
      simp only [List.length_cons] at h
      have h1 := dedupFirst_length_le (rest.filter (fun q => decide (q.1 ≠ p.1)))
      have h2 := List.length_filter_le (fun q : ℚ × ℚ => decide (q.1 ≠ p.1)) rest
      have hfl : (rest.filter (fun q => decide (q.1 ≠ p.1))).length = rest.length := by omega
      have hfil : rest.filter (fun q => decide (q.1 ≠ p.1)) = rest :=
        (List.filter_sublist rest).eq_of_length hfl
      rw [hfil] at ih h1 h
      rw [dedupFirst, hfil, ih (by omega)]

theorem sorted_lt_bounded_eq_range (l : List ℕ) (hs : List.Sorted (fun a b : ℕ => a < b) l)
    (hb : ∀ x ∈ l, x < l.length) : l = List.range l.length := by
  haveI : IsAntisymm ℕ (fun a b : ℕ => a < b) :=
    ⟨fun a b h1 h2 => absurd (lt_trans h1 h2) (lt_irrefl a)⟩
  have hnd : l.Nodup := hs.nodup
  have hsub : l ⊆ List.range l.length := fun x hx => List.mem_range.mpr (hb x hx)
  have hsp : l.Subperm (List.range l.length) := List.subperm_of_subset hnd hsub
  have hperm : l.Perm (List.range l.length) :=
    hsp.perm_of_length_le (by rw [List.length_range])
  exact List.eq_of_perm_of_sorted hperm hs (List.sorted_lt_range _)

/-- Both branches of the reassignment step of `validate_and_sort_data`
return the sorted unique view: when the source keeps the original
arrays, the guard condition forces them to already be duplicate-free and
sorted, hence equal to that view. -/
theorem uniqueReassign_eq (strain stress : List ℚ) (h : strain.length = stress.length) :
    uniqueReassign strain stress
      = ((sortUniquePairs strain stress).map Prod.fst,
         (sortUniquePairs strain stress).map Prod.snd) := by
  rw [uniqueReassign]
  split
  · rfl
  · rename_i hcond
    push_neg at hcond
    obtain ⟨hlen, hchain⟩ := hcond
    have hpl : (strain.zip stress).length = strain.length := by
      rw [List.length_zip, h, min_self]
    have huslen : ((sortUniquePairs strain stress).map Prod.fst).length
        = (dedupFirst (strain.zip stress)).length := by
      rw [List.length_map, sortUniquePairs, List.length_insertionSort]
    have hded : dedupFirst (strain.zip stress) = strain.zip stress := by
      apply dedupFirst_eq_of_length
      rw [hpl]
      rw [huslen] at hlen
      omega
    have hfstnodup : ((strain.zip stress).map Prod.fst).Nodup := by
      have := dedupFirst_fst_nodup (strain.zip stress)
      rw [hded] at this
      exact this
    have hmapfst : (strain.zip stress).map Prod.fst = strain :=
      List.map_fst_zip _ _ (le_of_eq h)
    have hstrainnodup : strain.Nodup := hmapfst ▸ hfstnodup
    have hpermq : (sortUniquePairs strain stress).Perm (strain.zip stress) := by
      rw [sortUniquePairs, hded]
      exact List.perm_insertionSort _ _
    have huspermstrain : ((sortUniquePairs strain stress).map Prod.fst).Perm strain := by
      have hpm := hpermq.map Prod.fst
      rwa [hmapfst] at hpm
    have husnodup : ((sortUniquePairs strain stress).map Prod.fst).Nodup :=
      hstrainnodup.perm huspermstrain.symm
    have hussorted : List.Sorted (fun a b : ℚ => a < b)
        ((sortUniquePairs strain stress).map Prod.fst) := by
      refine List.Sorted.lt_of_le ?_ husnodup
      have hsu : List.Sorted (fun a b : ℚ × ℚ => a.1 ≤ b.1) (sortUniquePairs strain stress) := by
        rw [sortUniquePairs]
        haveI : IsTotal (ℚ × ℚ) (fun a b : ℚ × ℚ => a.1 ≤ b.1) := ⟨fun a b => le_total a.1 b.1⟩
        haveI : IsTrans (ℚ × ℚ) (fun a b : ℚ × ℚ => a.1 ≤ b.1) :=
          ⟨fun a b c h1 h2 => le_trans h1 h2⟩
        exact List.sorted_insertionSort _ _
      rw [List.Sorted, List.pairwise_map]
      exact hsu
    have hmemus : ∀ v ∈ (sortUniquePairs strain stress).map Prod.fst, v ∈ strain :=
      fun v hv => huspermstrain.mem_iff.mp hv
    have huslen2 : ((sortUniquePairs strain stress).map Prod.fst).length = strain.length := by
      rw [huslen, hded, hpl]
    have hidxlen : (((sortUniquePairs strain stress).map Prod.fst).map
        (fun v => strain.indexOf v)).length = strain.length := by
      rw [List.length_map, huslen2]
    have hidxnodup : (((sortUniquePairs strain stress).map Prod.fst).map
        (fun v => strain.indexOf v)).Nodup := by
      apply List.Nodup.map_on ?_ husnodup
      intro x hx y hy hxy
      exact (List.indexOf_inj (hmemus x hx) (hmemus y hy)).mp hxy
    have hidxsorted : List.Sorted (fun a b : ℕ => a < b)
        (((sortUniquePairs strain stress).map Prod.fst).map (fun v => strain.indexOf v)) := by
      refine List.Sorted.lt_of_le ?_ hidxnodup
      rw [List.Sorted, ← List.chain'_iff_pairwise]
      exact hchain
    have hidxbound : ∀ x ∈ ((sortUniquePairs strain stress).map Prod.fst).map
        (fun v => strain.indexOf v),
        x < (((sortUniquePairs strain stress).map Prod.fst).map
          (fun v => strain.indexOf v)).length := by
      intro x hx
      obtain ⟨v, hv, rfl⟩ := List.mem_map.mp hx
      rw [hidxlen]
      exact List.indexOf_lt_length.mpr (hmemus v hv)
    have hrange := sorted_lt_bounded_eq_range _ hidxsorted hidxbound
    rw [hidxlen] at hrange
    have hstrain_eq : strain = (sortUniquePairs strain stress).map Prod.fst := by
      apply List.ext_get (by rw [huslen2])
      intro n h1 h2
      have hn3 : n < (((sortUniquePairs strain stress).map Prod.fst).map
          (fun v => strain.indexOf v)).length := by
        rw [hidxlen]
        exact h1
      have hidxget : (((sortUniquePairs strain stress).map Prod.fst).map
          (fun v => strain.indexOf v)).get ⟨n, hn3⟩
          = strain.indexOf (((sortUniquePairs strain stress).map Prod.fst).get ⟨n, h2⟩) :=
        List.get_map _
      have hidxget2 : (((sortUniquePairs strain stress).map Prod.fst).map
          (fun v => strain.indexOf v)).get ⟨n, hn3⟩ = n := by
        rw [List.get_of_eq hrange, List.get_range]
      have hio : strain.indexOf (((sortUniquePairs strain stress).map Prod.fst).get ⟨n, h2⟩)
          = n := by rw [← hidxget, hidxget2]
      have hlt : strain.indexOf (((sortUniquePairs strain stress).map Prod.fst).get ⟨n, h2⟩)
          < strain.length := by
        rw [hio]
        exact h1
      have hig := List.indexOf_get
        (a := ((sortUniquePairs strain stress).map Prod.fst).get ⟨n, h2⟩)
        (l := strain) hlt
      have hfineq : (⟨strain.indexOf (((sortUniquePairs strain stress).map
          Prod.fst).get ⟨n, h2⟩), hlt⟩ : Fin strain.length) = ⟨n, h1⟩ := Fin.ext hio
      rw [hfineq] at hig
      exact hig
    have hpairs_sorted : List.Sorted (fun a b : ℚ × ℚ => a.1 ≤ b.1) (strain.zip stress) := by
      rw [List.Sorted, List.pairwise_iff_getElem]
      intro i j hi hj hij
      rw [List.getElem_zip, List.getElem_zip]
      have hsorted' : List.Sorted (fun a b : ℚ => a < b) strain := by
        rw [hstrain_eq]
        exact hussorted
      have hpl' : i < strain.length ∧ j < strain.length := by
        rw [hpl] at hi hj
        exact ⟨lt_of_le_of_lt (le_of_lt hij) hj, hj⟩
      have := (List.pairwise_iff_getElem.mp hsorted') i j hpl'.1 hpl'.2 hij
      exact le_of_lt this
    have huniq_eq : sortUniquePairs strain stress = strain.zip stress := by
      rw [sortUniquePairs, hded]
      exact List.Sorted.insertionSort_eq hpairs_sorted
    rw [huniq_eq, hmapfst, List.map_snd_zip _ _ (le_of_eq h.symm)]

theorem sortUnique_sorted (strain stress : List ℚ) :
    List.Sorted (fun a b : ℚ × ℚ => a.1 ≤ b.1) (sortUniquePairs strain stress) := by
  rw [sortUniquePairs]
  haveI : IsTotal (ℚ × ℚ) (fun a b : ℚ × ℚ => a.1 ≤ b.1) := ⟨fun a b => le_total a.1 b.1⟩
  haveI : IsTrans (ℚ × ℚ) (fun a b : ℚ × ℚ => a.1 ≤ b.1) := ⟨fun a b c h1 h2 => le_trans h1 h2⟩
  exact List.sorted_insertionSort _ _

theorem sortUnique_fst_sorted (strain stress : List ℚ) :
    List.Sorted (fun a b : ℚ => a < b) ((sortUniquePairs strain stress).map Prod.fst) := by
  refine List.Sorted.lt_of_le ?_ ?_
  · rw [List.Sorted, List.pairwise_map]
    exact sortUnique_sorted strain stress
  · have h1 := dedupFirst_fst_nodup (strain.zip stress)
    have hperm : ((sortUniquePairs strain stress).map Prod.fst).Perm
        ((dedupFirst (strain.zip stress)).map Prod.fst) :=
      (List.perm_insertionSort _ _).map _
    exact h1.perm hperm.symm

theorem zip_map_fst_snd (l : List (ℚ × ℚ)) :
    (l.map Prod.fst).zip (l.map Prod.snd) = l := by
  rw [List.zip_map']
  simp

/-- Inversion of a successful validation: all guards were passed and the
output is the (both-branches-equal) reassignment step's result. -/
theorem validate_ok_inv (strain stress : List ℚ) (out : List ℚ × List ℚ)
    (hok : validate_and_sort_data strain stress = .ok out) :
    strain.length = stress.length ∧ 5 ≤ strain.length ∧
    out = uniqueReassign strain stress ∧ 5 ≤ out.1.length ∧
    1 / 1000000000 ≤ out.1.getLastD 0 - out.1.headD 0 ∧
    1 / 1000000000 ≤ listMax out.2 - listMin out.2 := by
  rw [validate_and_sort_data] at hok
  split_ifs at hok with h1 h2 h3 h4 h5
  simp only [Except.ok.injEq] at hok
  subst hok
  exact ⟨not_ne_iff.mp h1, not_lt.mp h2, rfl, not_lt.mp h3,
    not_lt.mp h4, not_lt.mp h5⟩

/-- C6: the validator removes duplicate strain values keeping the first
occurrence per unique strain and returns the curve sorted strictly
ascending; it fails with `InsufficientData` when fewer than 5 points
remain after deduplication; in particular `strain = [1,2,2,3,4]` with
any equal-length stress leaves 4 unique points and fails with
`InsufficientData`. -/
theorem validator_dedup_sort (strain stress : List ℚ) :
    (∀ s t, validate_and_sort_data strain stress = .ok (s, t) →
      s.zip t = sortUniquePairs strain stress ∧
        List.Sorted (fun a b : ℚ => a < b) s) ∧
    (strain.length = stress.length → 5 ≤ strain.length →
      (dedupFirst (strain.zip stress)).length < 5 →
      validate_and_sort_data strain stress = .error .InsufficientData) ∧
    (stress.length = 5 →
      validate_and_sort_data [1, 2, 2, 3, 4] stress = .error .InsufficientData) := by
  refine ⟨?_, ?_, ?_⟩
  · intro s t hok
    obtain ⟨hlen, h5, hout, _, _, _⟩ := validate_ok_inv _ _ _ hok
    rw [uniqueReassign_eq _ _ hlen, Prod.mk.injEq] at hout
    obtain ⟨hs, ht⟩ := hout
    subst hs
    subst ht
    exact ⟨zip_map_fst_snd _, sortUnique_fst_sorted _ _⟩
  · intro hlen h5 hdl
    have hlt : ((sortUniquePairs strain stress).map Prod.fst).length < 5 := by
      rw [List.length_map, sortUniquePairs, List.length_insertionSort]
      exact hdl
    rw [validate_and_sort_data, if_neg (not_not_intro hlen), if_neg (not_lt.mpr h5),
      if_neg (not_lt.mpr h5), uniqueReassign_eq _ _ hlen]
    dsimp only
    rw [if_pos hlt]
  · intro h5s
    rcases stress with _ | ⟨a, _ | ⟨b, _ | ⟨c, _ | ⟨d, _ | ⟨e, rest⟩⟩⟩⟩⟩ <;>
      simp only [List.length_cons, List.length_nil] at h5s <;> try omega
    have hrest : rest = [] := List.length_eq_zero.mp (by omega)
    subst hrest
    norm_num [validate_and_sort_data, uniqueReassign, sortUniquePairs, dedupFirst,
      List.insertionSort, List.orderedInsert, List.indexOf, List.findIdx, List.findIdx.go,
      List.Chain']

/-- C6 witness: the claim's concrete instance, with a concrete stress. -/
theorem validator_dedup_sort_witness :
    validate_and_sort_data [1, 2, 2, 3, 4] [9, 8, 7, 6, 5] = .error .InsufficientData :=
  (validator_dedup_sort [1, 2, 2, 3, 4] [9, 8, 7, 6, 5]).2.2 (by norm_num)

/-- C10: the validator is idempotent — revalidating a successful output
succeeds and returns it unchanged. -/
theorem validator_idempotent (strain stress s t : List ℚ)
    (hok : validate_and_sort_data strain stress = .ok (s, t)) :
    validate_and_sort_data s t = .ok (s, t) := by
  obtain ⟨hlen, h5, hout, h5', hspan1, hspan2⟩ := validate_ok_inv _ _ _ hok
  rw [uniqueReassign_eq _ _ hlen, Prod.mk.injEq] at hout
  obtain ⟨hs, ht⟩ := hout
  subst hs
  subst ht
  have h2len : ((sortUniquePairs strain stress).map Prod.fst).length
      = ((sortUniquePairs strain stress).map Prod.snd).length := by
    rw [List.length_map, List.length_map]
  have hzip : ((sortUniquePairs strain stress).map Prod.fst).zip
      ((sortUniquePairs strain stress).map Prod.snd) = sortUniquePairs strain stress :=
    zip_map_fst_snd _
  have hre : uniqueReassign ((sortUniquePairs strain stress).map Prod.fst)
      ((sortUniquePairs strain stress).map Prod.snd)
      = ((sortUniquePairs strain stress).map Prod.fst,
         (sortUniquePairs strain stress).map Prod.snd) := by
    have hded2 : dedupFirst (((sortUniquePairs strain stress).map Prod.fst).zip
        ((sortUniquePairs strain stress).map Prod.snd))
        = sortUniquePairs strain stress := by
      rw [hzip]
      exact dedupFirst_eq_self _ (sortUnique_fst_sorted strain stress).nodup
    have hsu2 : sortUniquePairs ((sortUniquePairs strain stress).map Prod.fst)
        ((sortUniquePairs strain stress).map Prod.snd) = sortUniquePairs strain stress := by
      rw [sortUniquePairs, hded2]
      exact List.Sorted.insertionSort_eq (sortUnique_sorted strain stress)
    rw [uniqueReassign_eq _ _ h2len, hsu2]
  rw [validate_and_sort_data, if_neg (not_not_intro h2len), if_neg (not_lt.mpr h5'),
    if_neg (not_lt.mpr h5'), hre]
  dsimp only
  rw [if_neg (not_lt.mpr h5'), if_neg (not_lt.mpr hspan1), if_neg (not_lt.mpr hspan2)]

/-! ## Claims -/

/-- C2: for every tension analysis result the pipeline enforces
`initial_modulus = max(initial_modulus, effective_modulus)` after the
statistical estimate, so the reported initial modulus is never below the
reported effective modulus. -/
theorem tensile_initial_modulus_floor (cfg : Config) (sg : SavGol) (st : AnalyzerState) :
    (run_analysis cfg sg st).E_init_GPa =
      max (calcEInitStatistical (tangentModulusCurve sg st (calcPeakRobust st).1))
        (calcEEffectiveRegression cfg st (calcPeakRobust st).1 (calcPeakRobust st).2.1).1 / 1000
    ∧ (run_analysis cfg sg st).E_eff_GPa ≤ (run_analysis cfg sg st).E_init_GPa := by
  constructor
  · simp only [run_analysis]
    rw [if_lt_eq_max]
  · simp only [run_analysis]
    rw [if_lt_eq_max]
    gcongr
    exact le_max_right _ _

/-- C9: the statistical initial-modulus estimate is either exactly 0 or
a mean of values strictly inside the physical band, hence itself strictly
between 1000 and 60000. -/
theorem e_init_zero_or_band (dedx : List ℚ) :
    calcEInitStatistical dedx = 0 ∨
      (1000 < calcEInitStatistical dedx ∧ calcEInitStatistical dedx < 60000) := by
  by_cases h0 : dedx.length = 0
  · left
    simp [calcEInitStatistical, h0]
  · by_cases hv : ((dedx.take (max 5 (3 * dedx.length / 10))).filter
        (fun v => decide (1000 < v ∧ v < 60000))).length = 0
    · left
      simp only [calcEInitStatistical, if_neg h0]
      rw [if_pos hv]
    · right
      have hval : calcEInitStatistical dedx =
          meanQ (((List.insertionSort (fun a b : ℚ => a ≤ b)
            ((dedx.take (max 5 (3 * dedx.length / 10))).filter
              (fun v => decide (1000 < v ∧ v < 60000)))).reverse).take
            (max 1 (((dedx.take (max 5 (3 * dedx.length / 10))).filter
              (fun v => decide (1000 < v ∧ v < 60000))).length / 10))) := by
        simp only [calcEInitStatistical, if_neg h0]
        rw [if_neg hv]
      set valid := (dedx.take (max 5 (3 * dedx.length / 10))).filter
        (fun v => decide (1000 < v ∧ v < 60000)) with hvalid
      set taken := ((List.insertionSort (fun a b : ℚ => a ≤ b) valid).reverse).take
        (max 1 (valid.length / 10)) with htaken
      have hmem : ∀ x ∈ taken, 1000 < x ∧ x < 60000 := by
        intro x hx
        have hx2 : x ∈ (List.insertionSort (fun a b : ℚ => a ≤ b) valid).reverse :=
          List.mem_of_mem_take hx
        rw [List.mem_reverse] at hx2
        have hx3 : x ∈ valid := (List.perm_insertionSort _ valid).mem_iff.mp hx2
        have := List.of_mem_filter hx3
        simpa using this
      have hne : taken ≠ [] := by
        intro hnil
        rw [htaken, List.take_eq_nil_iff] at hnil
        rcases hnil with h1 | h2
        · simp at h1
        · apply hv
          have := congrArg List.length h2
          simpa using this
      rw [hval]
      exact ⟨lt_meanQ hne (fun x hx => (hmem x hx).1),
        meanQ_lt hne (fun x hx => (hmem x hx).2)⟩

/-- C4 counterexample: the statistical estimator searches the first
`max(5, int(0.3·len))` entries, not only the first 30%: on the 6-point
tangent curve `[0, 0, 1500, 0, 0, 0]` the only in-band value sits at
index 2, beyond the first 30% (one entry), yet the code returns 1500
where the claim's description returns 0. -/
theorem e_init_claim_counterexample :
    calcEInitStatistical [0, 0, 1500, 0, 0, 0] = 1500 ∧
    EInitSpecClaim [0, 0, 1500, 0, 0, 0] = 0 ∧
    calcEInitStatistical [0, 0, 1500, 0, 0, 0] ≠ EInitSpecClaim [0, 0, 1500, 0, 0, 0] := by
  refine ⟨?_, ?_, ?_⟩ <;>
    norm_num [calcEInitStatistical, EInitSpecClaim, meanQ, List.insertionSort,
      List.orderedInsert]

/-- C1: every tension result produced by `run_analysis` on a constructed
(non-empty) analyzer state satisfies `0 ≤ idx_cr ≤ idx_u ≤ length - 1`,
where `length` is the number of points of the analyzed stress curve. -/
theorem tensile_indices_ordered (sg : SavGol) (cfg : Config)
    (strain stress : List ℚ) (st : AnalyzerState)
    (hsg : ∀ l w p r, sg l w p = some r → r.length = l.length)
    (hmk : mkAnalyzer sg cfg strain stress = .ok st)
    (hne : st.raw_stress ≠ []) :
    0 ≤ (run_analysis cfg sg st).idx_cr ∧
    (run_analysis cfg sg st).idx_cr ≤ (run_analysis cfg sg st).idx_u ∧
    (run_analysis cfg sg st).idx_u ≤ st.raw_stress.length - 1 := by
  have hlen : st.smooth_stress.length = st.raw_stress.length :=
    mkAnalyzer_smooth_length sg cfg strain stress st hsg hmk
  have hsne : st.smooth_stress ≠ [] := by
    intro h
    apply hne
    apply List.length_eq_zero.mp
    rw [← hlen, h]
    rfl
  have hiplt : (calcPeakRobust st).1 < st.raw_stress.length := by
    rw [calcPeakRobust, if_neg (fun h => hne (List.length_eq_zero.mp h))]
    calc np_argmax st.smooth_stress < st.smooth_stress.length := np_argmax_lt _ hsne
      _ = st.raw_stress.length := hlen
  simp only [run_analysis]
  refine ⟨Nat.zero_le _, ?_, ?_⟩
  · calc (crackPair st _ _ _ _ _ (calcPeakRobust st).1).2 ≤ (calcPeakRobust st).1 :=
        crackPair_snd_le _ _ _ _ _ _ _
      _ ≤ ultimateIdx st (calcPeakRobust st).1 _ := ultimateIdx_ge _ _ _
  · have := ultimateIdx_lt st (calcPeakRobust st).1
      (cfg.ULTIMATE_STRAIN_RATIO * (calcPeakRobust st).2.1) hlen hiplt
    omega

/-- C1 witness: a concrete 7-point tension curve through the full
constructor, with every hypothesis discharged. -/
theorem tensile_indices_ordered_witness :
    (mkAnalyzer sgNone defaultConfig [0, 1/100, 2/100, 3/100, 4/100, 5/100, 6/100]
        [1, 2, 3, 4, 5, 6, 7]
      = .ok ⟨[0, 1/100, 2/100, 3/100, 4/100, 5/100, 6/100], [1, 2, 3, 4, 5, 6, 7],
          [1, 2, 3, 4, 5, 6, 7]⟩) ∧
    (0 ≤ (run_analysis defaultConfig sgNone
        ⟨[0, 1/100, 2/100, 3/100, 4/100, 5/100, 6/100], [1, 2, 3, 4, 5, 6, 7],
          [1, 2, 3, 4, 5, 6, 7]⟩).idx_cr ∧
      (run_analysis defaultConfig sgNone
        ⟨[0, 1/100, 2/100, 3/100, 4/100, 5/100, 6/100], [1, 2, 3, 4, 5, 6, 7],
          [1, 2, 3, 4, 5, 6, 7]⟩).idx_cr ≤
      (run_analysis defaultConfig sgNone
        ⟨[0, 1/100, 2/100, 3/100, 4/100, 5/100, 6/100], [1, 2, 3, 4, 5, 6, 7],
          [1, 2, 3, 4, 5, 6, 7]⟩).idx_u ∧
      (run_analysis defaultConfig sgNone
        ⟨[0, 1/100, 2/100, 3/100, 4/100, 5/100, 6/100], [1, 2, 3, 4, 5, 6, 7],
          [1, 2, 3, 4, 5, 6, 7]⟩).idx_u ≤
        (AnalyzerState.raw_stress ⟨[0, 1/100, 2/100, 3/100, 4/100, 5/100, 6/100],
          [1, 2, 3, 4, 5, 6, 7], [1, 2, 3, 4, 5, 6, 7]⟩).length - 1) := by
  have hmk : mkAnalyzer sgNone defaultConfig
      [0, 1/100, 2/100, 3/100, 4/100, 5/100, 6/100] [1, 2, 3, 4, 5, 6, 7]
      = .ok ⟨[0, 1/100, 2/100, 3/100, 4/100, 5/100, 6/100], [1, 2, 3, 4, 5, 6, 7],
          [1, 2, 3, 4, 5, 6, 7]⟩ := by
    norm_num [mkAnalyzer, sgNone, defaultConfig, validate_and_sort_data, uniqueReassign,
      sortUniquePairs, dedupFirst, List.insertionSort, List.orderedInsert, listMax, listMin,
      List.indexOf, List.findIdx, List.findIdx.go, List.Chain']
  exact ⟨hmk, tensile_indices_ordered sgNone defaultConfig _ _ _
    (fun l w p r h => by simp [sgNone] at h) hmk (by simp)⟩

/-- C3 counterexample: at exactly `len = idx_peak + 5` the code does not
scan (it scans only when `len > idx_peak + 5`), while the claim's
description ("fewer than `idx_peak + 5` points" keeps the peak) does
scan: on this constructed 6-point curve with `idx_peak = 1` and
threshold `0.85 × 10`, the code reports `idx_u = 1` but the claim's
description selects index 2. -/
theorem ultimate_detection_claim_counterexample :
    mkAnalyzer sgNone defaultConfig [0, 1/100, 2/100, 3/100, 4/100, 5/100]
        [5, 10, 1, 1, 1, 9/10]
      = .ok ⟨[0, 1/100, 2/100, 3/100, 4/100, 5/100], [5, 10, 1, 1, 1, 9/10],
          [5, 10, 1, 1, 1, 9/10]⟩ ∧
    (calcPeakRobust ⟨[0, 1/100, 2/100, 3/100, 4/100, 5/100], [5, 10, 1, 1, 1, 9/10],
        [5, 10, 1, 1, 1, 9/10]⟩).1 = 1 ∧
    defaultConfig.ULTIMATE_STRAIN_RATIO *
      (calcPeakRobust ⟨[0, 1/100, 2/100, 3/100, 4/100, 5/100], [5, 10, 1, 1, 1, 9/10],
        [5, 10, 1, 1, 1, 9/10]⟩).2.1 = 17/2 ∧
    (run_analysis defaultConfig sgNone ⟨[0, 1/100, 2/100, 3/100, 4/100, 5/100],
        [5, 10, 1, 1, 1, 9/10], [5, 10, 1, 1, 1, 9/10]⟩).idx_u = 1 ∧
    ultimateSpecClaim [5, 10, 1, 1, 1, 9/10] 6 1 (17/2) = 2 := by
  refine ⟨?_, ?_, ?_, ?_, ?_⟩
  · norm_num [mkAnalyzer, sgNone, defaultConfig, validate_and_sort_data, uniqueReassign,
      sortUniquePairs, dedupFirst, List.insertionSort, List.orderedInsert, listMax, listMin,
      List.indexOf, List.findIdx, List.findIdx.go, List.Chain']
  · norm_num [calcPeakRobust, np_argmax]
  · norm_num [calcPeakRobust, np_argmax, defaultConfig]
  · norm_num [run_analysis, calcPeakRobust, np_argmax, ultimateIdx, defaultConfig]
  · norm_num [ultimateSpecClaim, listMax, List.range, List.range.loop]

/-- C3 amended: ultimate-state detection keeps `idx_u = idx_peak`
whenever the curve has at most `idx_peak + 5` points (the claim said
"fewer than"); otherwise it scans forward from `idx_peak` on the
smoothed curve, selects the first index below threshold whose look-ahead
window of length `max(10, int(0.02·len))` starting there stays entirely
below threshold (a dip that rebounds above threshold within the window is
never selected), and falls back to the last index when no index
qualifies. -/
theorem ultimate_detection_amended (cfg : Config) (sg : SavGol) (st : AnalyzerState)
    (idx_peak : ℕ) (thr : ℚ)
    (hlen : st.smooth_stress.length = st.raw_stress.length) :
    ultimateIdx st idx_peak thr
      = ultimateSpecAmended st.smooth_stress st.raw_stress.length idx_peak thr ∧
    (run_analysis cfg sg st).idx_u
      = ultimateSpecAmended st.smooth_stress st.raw_stress.length (calcPeakRobust st).1
          (cfg.ULTIMATE_STRAIN_RATIO * (calcPeakRobust st).2.1) := by
  constructor
  · exact ultimateIdx_eq_spec st idx_peak thr hlen
  · simp only [run_analysis]
    exact ultimateIdx_eq_spec st _ _ hlen

/-- C3 amended witness: the theorem applied to a concrete 12-point state
whose scan selects a genuine post-peak failure index. -/
theorem ultimate_detection_amended_witness :
    ultimateIdx ⟨[0, 1/100, 2/100, 3/100, 4/100, 5/100, 6/100, 7/100, 8/100, 9/100,
        10/100, 11/100], [1, 2, 10, 9, 1, 1, 1, 1, 1, 1, 1, 1],
        [1, 2, 10, 9, 1, 1, 1, 1, 1, 1, 1, 1]⟩ 2 (17/2)
      = ultimateSpecAmended [1, 2, 10, 9, 1, 1, 1, 1, 1, 1, 1, 1] 12 2 (17/2) :=
  (ultimate_detection_amended defaultConfig sgNone
    ⟨[0, 1/100, 2/100, 3/100, 4/100, 5/100, 6/100, 7/100, 8/100, 9/100, 10/100, 11/100],
      [1, 2, 10, 9, 1, 1, 1, 1, 1, 1, 1, 1], [1, 2, 10, 9, 1, 1, 1, 1, 1, 1, 1, 1]⟩
    2 (17/2) rfl).1

/-- C5 counterexample: when the stress sequence has at most 3 points the
compressive fast path of `BaseAnalyzer.__init__` skips validation
entirely, so a 5-point strain against a 2-point stress is accepted (and
analyzed) instead of failing with `DimensionMismatch`. -/
theorem dimension_mismatch_claim_counterexample :
    ([0, 1/100, 2/100, 3/100, 1/25] : List ℚ).length ≠ ([5, 3] : List ℚ).length ∧
    mkAnalyzer sgNone defaultConfig [0, 1/100, 2/100, 3/100, 1/25] [5, 3]
      = .ok ⟨[0, 1/100, 2/100, 3/100, 1/25], [5, 3], [5, 3]⟩ ∧
    (run_analysis defaultConfig sgNone
      ⟨[0, 1/100, 2/100, 3/100, 1/25], [5, 3], [5, 3]⟩).idx_u = 0 := by
  refine ⟨by norm_num, by norm_num [mkAnalyzer, sgNone], ?_⟩
  norm_num [run_analysis, calcPeakRobust, np_argmax, ultimateIdx]

/-- C5 amended: whenever the two input sequences have different lengths
and the stress sequence has more than 3 points (so the compressive
fast path does not bypass validation), construction of the analyzer
fails with `DimensionMismatch`; the caller isolates such per-sample
failures from the rest of the batch. -/
theorem dimension_mismatch_amended (sg : SavGol) (cfg : Config)
    (strain stress : List ℚ)
    (hne : strain.length ≠ stress.length) (h3 : 3 < stress.length) :
    mkAnalyzer sg cfg strain stress = .error .DimensionMismatch := by
  rw [mkAnalyzer, if_neg (by omega), validate_and_sort_data, if_pos hne]

/-- C5 amended witness: concrete mismatched 5-point strain / 4-point
stress input. -/
theorem dimension_mismatch_amended_witness :
    mkAnalyzer sgNone defaultConfig [0, 1/100, 2/100, 3/100, 1/25] [5, 4, 3, 2]
      = .error .DimensionMismatch :=
  dimension_mismatch_amended sgNone defaultConfig _ _ (by norm_num) (by norm_num)

/-- C4 amended: the estimator searches the first `max(5, int(0.3·len))`
entries of the tangent-modulus curve, keeps only values strictly between
1000 and 60000, returns 0 when no value survives, and otherwise returns
the mean of the top `max(1, int(0.1·count))` surviving values. -/
theorem e_init_statistical_amended (dedx : List ℚ) :
    calcEInitStatistical dedx = EInitSpecAmended dedx := by
  by_cases h0 : dedx.length = 0
  · have hnil : dedx = [] := List.length_eq_zero.mp h0
    subst hnil
    simp [calcEInitStatistical, EInitSpecAmended]
  · have hne : dedx ≠ [] := fun h => h0 (by simp [h])
    simp only [calcEInitStatistical, EInitSpecAmended, if_neg h0, if_neg hne]
    rw [insertionSort_reverse_eq]
    by_cases hv : ((dedx.take (max 5 (3 * dedx.length / 10))).filter
        (fun v => decide (1000 < v ∧ v < 60000))).length = 0
    · rw [if_pos hv, if_pos (List.length_eq_zero.mp hv)]
    · rw [if_neg hv, if_neg (fun h => hv (by rw [h]; rfl))]

/-- C8: the effective-modulus regression fits a (slope-floored,
failure-tolerant) line over the pre-peak points whose stress lies in
`[lower_ratio, upper_ratio] × stress_max`; with fewer than 3 such points
it widens the band to `[5%, 50%] × stress_max`; with still fewer than 3,
it returns `(0, 0)`; and the reported slope is never negative.  The
hypotheses record what holds at every call site: `idx_peak` is an index
of the stress curve (or the curve is empty), constructed curves never
have exactly 4 points (4-point inputs are rejected by the validator and
the fast path keeps at most 3), the strain curve is at least as long as
the pre-peak prefix, and the configured band is non-degenerate. -/
theorem effective_regression_bands (cfg : Config) (st : AnalyzerState)
    (idx_peak : ℕ) (stress_max : ℚ)
    (hip : idx_peak < st.raw_stress.length ∨ st.raw_stress = [])
    (hn4 : st.raw_stress.length ≠ 4)
    (hstrain : idx_peak ≤ st.raw_strain.length)
    (hlohi : cfg.ELASTIC_LOWER_RATIO < cfg.ELASTIC_UPPER_RATIO) :
    0 ≤ (calcEEffectiveRegression cfg st idx_peak stress_max).1 ∧
    (3 ≤ (((st.raw_strain.take idx_peak).zip (st.raw_stress.take idx_peak)).filter
        (fun p => decide (cfg.ELASTIC_LOWER_RATIO * stress_max ≤ p.2 ∧
          p.2 ≤ cfg.ELASTIC_UPPER_RATIO * stress_max))).length →
      calcEEffectiveRegression cfg st idx_peak stress_max
        = fitLineFloored (((st.raw_strain.take idx_peak).zip (st.raw_stress.take idx_peak)).filter
            (fun p => decide (cfg.ELASTIC_LOWER_RATIO * stress_max ≤ p.2 ∧
              p.2 ≤ cfg.ELASTIC_UPPER_RATIO * stress_max)))) ∧
    ((((st.raw_strain.take idx_peak).zip (st.raw_stress.take idx_peak)).filter
        (fun p => decide (cfg.ELASTIC_LOWER_RATIO * stress_max ≤ p.2 ∧
          p.2 ≤ cfg.ELASTIC_UPPER_RATIO * stress_max))).length < 3 →
      3 ≤ (((st.raw_strain.take idx_peak).zip (st.raw_stress.take idx_peak)).filter
        (fun p => decide (stress_max * (1 / 20) ≤ p.2 ∧ p.2 ≤ stress_max * (1 / 2)))).length →
      calcEEffectiveRegression cfg st idx_peak stress_max
        = fitLineFloored (((st.raw_strain.take idx_peak).zip (st.raw_stress.take idx_peak)).filter
            (fun p => decide (stress_max * (1 / 20) ≤ p.2 ∧ p.2 ≤ stress_max * (1 / 2))))) ∧
    ((((st.raw_strain.take idx_peak).zip (st.raw_stress.take idx_peak)).filter
        (fun p => decide (cfg.ELASTIC_LOWER_RATIO * stress_max ≤ p.2 ∧
          p.2 ≤ cfg.ELASTIC_UPPER_RATIO * stress_max))).length < 3 →
      (((st.raw_strain.take idx_peak).zip (st.raw_stress.take idx_peak)).filter
        (fun p => decide (stress_max * (1 / 20) ≤ p.2 ∧ p.2 ≤ stress_max * (1 / 2)))).length < 3 →
      calcEEffectiveRegression cfg st idx_peak stress_max = (0, 0)) := by
  have hnonneg : 0 ≤ (calcEEffectiveRegression cfg st idx_peak stress_max).1 := by
    simp only [calcEEffectiveRegression]
    split
    · norm_num
    · split
      · split
        · exact fitLineFloored_fst_nonneg _
        · norm_num
      · split
        · exact fitLineFloored_fst_nonneg _
        · norm_num
  by_cases hg : st.raw_stress.length < 5 ∨ stress_max ≤ 0
  · have hres : calcEEffectiveRegression cfg st idx_peak stress_max = (0, 0) := by
      rw [calcEEffectiveRegression, if_pos hg]
    rcases hg with h5 | hsm
    · have hseg : (((st.raw_strain.take idx_peak).zip (st.raw_stress.take idx_peak))).length < 3 := by
        rw [List.length_zip, List.length_take, List.length_take]
        rcases hip with h | h
        · omega
        · rw [h]
          simp
      refine ⟨hnonneg, ?_, ?_, fun _ _ => hres⟩
      · intro h3
        have := List.length_filter_le (fun p : ℚ × ℚ =>
          decide (cfg.ELASTIC_LOWER_RATIO * stress_max ≤ p.2 ∧
            p.2 ≤ cfg.ELASTIC_UPPER_RATIO * stress_max))
          ((st.raw_strain.take idx_peak).zip (st.raw_stress.take idx_peak))
        omega
      · intro _ h3
        have := List.length_filter_le (fun p : ℚ × ℚ =>
          decide (stress_max * (1 / 20) ≤ p.2 ∧ p.2 ≤ stress_max * (1 / 2)))
          ((st.raw_strain.take idx_peak).zip (st.raw_stress.take idx_peak))
        omega
    · rcases lt_or_eq_of_le hsm with hneg | hzero
      · have hq1 : (((st.raw_strain.take idx_peak).zip (st.raw_stress.take idx_peak)).filter
            (fun p => decide (cfg.ELASTIC_LOWER_RATIO * stress_max ≤ p.2 ∧
              p.2 ≤ cfg.ELASTIC_UPPER_RATIO * stress_max))) = [] := by
          rw [List.filter_eq_nil_iff]
          intro p _
          have hflip : cfg.ELASTIC_UPPER_RATIO * stress_max
              < cfg.ELASTIC_LOWER_RATIO * stress_max :=
            mul_lt_mul_of_neg_right hlohi hneg
          simp only [decide_eq_true_eq, not_and]
          intro h1 h2
          linarith
        have hq2 : (((st.raw_strain.take idx_peak).zip (st.raw_stress.take idx_peak)).filter
            (fun p => decide (stress_max * (1 / 20) ≤ p.2 ∧ p.2 ≤ stress_max * (1 / 2)))) = [] := by
          rw [List.filter_eq_nil_iff]
          intro p _
          simp only [decide_eq_true_eq, not_and]
          intro h1 h2
          nlinarith
        refine ⟨hnonneg, ?_, ?_, fun _ _ => hres⟩
        · intro h3
          rw [hq1] at h3
          simp at h3
        · intro _ h3
          rw [hq2] at h3
          simp at h3
      · subst hzero
        have hq1z : ∀ p ∈ (((st.raw_strain.take idx_peak).zip
            (st.raw_stress.take idx_peak)).filter
            (fun p => decide (cfg.ELASTIC_LOWER_RATIO * 0 ≤ p.2 ∧
              p.2 ≤ cfg.ELASTIC_UPPER_RATIO * 0))), p.2 = 0 := by
          intro p hp
          have := List.of_mem_filter hp
          simp only [decide_eq_true_eq, mul_zero] at this
          linarith
        have hq2z : ∀ p ∈ (((st.raw_strain.take idx_peak).zip
            (st.raw_stress.take idx_peak)).filter
            (fun p => decide ((0 : ℚ) * (1 / 20) ≤ p.2 ∧ p.2 ≤ (0 : ℚ) * (1 / 2)))), p.2 = 0 := by
          intro p hp
          have := List.of_mem_filter hp
          simp only [decide_eq_true_eq, zero_mul] at this
          linarith
        exact ⟨hnonneg,
          fun _ => by rw [hres, fitLineFloored_of_snd_zero _ hq1z],
          fun _ _ => by rw [hres, fitLineFloored_of_snd_zero _ hq2z],
          fun _ _ => hres⟩
  · refine ⟨hnonneg, ?_, ?_, ?_⟩
    · intro h3
      simp only [calcEEffectiveRegression, if_neg hg]
      split_ifs <;> first | rfl | (exfalso; omega)
    · intro h1 h3
      simp only [calcEEffectiveRegression, if_neg hg]
      split_ifs <;> first | rfl | (exfalso; omega)
    · intro h1 h2
      simp only [calcEEffectiveRegression, if_neg hg]
      split_ifs <;> first | rfl | (exfalso; omega)

/-- C8 witness: a 6-point linear-ramp curve whose first band already
holds 4 points, exercising the primary regression path with every
hypothesis discharged at the default configuration. -/
theorem effective_regression_bands_witness :
    0 ≤ (calcEEffectiveRegression defaultConfig
      ⟨[0, 1/100, 2/100, 3/100, 4/100, 5/100], [0, 1, 2, 3, 4, 10],
        [0, 1, 2, 3, 4, 10]⟩ 5 10).1 ∧
    (3 ≤ ((([0, 1/100, 2/100, 3/100, 4/100, (5/100 : ℚ)].take 5).zip
        (([0, 1, 2, 3, 4, (10 : ℚ)]).take 5)).filter
        (fun p => decide (defaultConfig.ELASTIC_LOWER_RATIO * 10 ≤ p.2 ∧
          p.2 ≤ defaultConfig.ELASTIC_UPPER_RATIO * 10))).length →
      calcEEffectiveRegression defaultConfig
        ⟨[0, 1/100, 2/100, 3/100, 4/100, 5/100], [0, 1, 2, 3, 4, 10],
          [0, 1, 2, 3, 4, 10]⟩ 5 10
        = fitLineFloored ((([0, 1/100, 2/100, 3/100, 4/100, (5/100 : ℚ)].take 5).zip
            (([0, 1, 2, 3, 4, (10 : ℚ)]).take 5)).filter
            (fun p => decide (defaultConfig.ELASTIC_LOWER_RATIO * 10 ≤ p.2 ∧
              p.2 ≤ defaultConfig.ELASTIC_UPPER_RATIO * 10)))) := by
  have h := effective_regression_bands defaultConfig
    ⟨[0, 1/100, 2/100, 3/100, 4/100, 5/100], [0, 1, 2, 3, 4, 10], [0, 1, 2, 3, 4, 10]⟩
    5 10 (Or.inl (by norm_num)) (by norm_num) (by norm_num)
    (by norm_num [defaultConfig])
  exact ⟨h.1, h.2.1⟩

/-- C10 witness: an unsorted, duplicated 6-point raw sample; its
validated output revalidates to itself. -/
theorem validator_idempotent_witness :
    validate_and_sort_data [0, 1, 2, 3, 4] [1, 2, 4, 6, 9]
      = .ok ([0, 1, 2, 3, 4], [1, 2, 4, 6, 9]) :=
  validator_idempotent [3, 1, 0, 2, 4, 3] [6, 2, 1, 4, 9, 6] _ _ (by
    norm_num [validate_and_sort_data, uniqueReassign, sortUniquePairs, dedupFirst,
      List.insertionSort, List.orderedInsert, listMax, listMin, List.indexOf,
      List.findIdx, List.findIdx.go, List.Chain'])

theorem foldl_collect_eq (k : String) :
    ∀ (data : List Item) (init : List ℚ),
      data.foldl (fun acc it =>
        match it.lookup k with
        | some (.num q) => acc ++ [q]
        | _ => acc) init = init ++ collectVals data k := by
  intro data
  induction data with
  | nil => intro init; simp [collectVals]
  | cons it rest ih =>
      intro init
      rw [List.foldl_cons, collectVals, List.filterMap_cons]
      rcases hl : List.lookup k it with _ | v
      · simp only [hl]
        rw [ih, collectVals]
      · cases v with
        | num q =>
            simp only [hl]
            rw [ih, collectVals]
            simp
        | jbool b =>
            simp only [hl]
            rw [ih, collectVals]
        | jstr sv =>
            simp only [hl]
            rw [ih, collectVals]
        | null =>
            simp only [hl]
            rw [ih, collectVals]

theorem lookup_map_self {β : Type} (f : String → β) :
    ∀ (keys : List String) (k : String), k ∈ keys →
      List.lookup k (keys.map (fun k0 => (k0, f k0))) = some (f k) := by
  intro keys
  induction keys with
  | nil =>
      intro k hk
      simp at hk
  | cons k0 rest ih =>
      intro k hk
      rw [List.map_cons, List.lookup_cons]
      by_cases he : k = k0
      · subst he
        simp
      · simp only [show (k == k0) = false from beq_eq_false_iff_ne.mpr he]
        refine ih k ?_
        rcases List.mem_cons.mp hk with h | h
        · exact absurd h he
        · exact h

/-- C7 counterexample: a non-empty list consisting of one empty mapping
is returned as a bare `{}` (here `none`) — no `count` entry is reported,
contradicting the claim's "for every non-empty list". -/
theorem group_stats_claim_counterexample :
    get_group_stats [([] : Item)] = none ∧ ([([] : Item)] : List Item) ≠ [] := by
  constructor
  · rfl
  · simp

/-- C7 amended: for every list of result mappings containing at least one
non-empty mapping, the aggregator reports `count` = number of items, and
every candidate key (keys of the first non-empty item, underscore-prefixed
excluded) is present with the mean and squared sample standard deviation
(divisor `n-1`, zero when `n = 1`) of its finite non-boolean numeric
values across all items, or an explicit `(0, 0)` when none exist; the
claim's concrete instance holds with `a_mean = 2` and `count = 3`. -/
theorem group_stats_amended :
    (∀ data : List Item, (∃ it ∈ data, it ≠ ([] : Item)) →
      ∃ l, get_group_stats data = some (data.length, l) ∧
        ∀ k ∈ candidateKeys data,
          List.lookup k l = some (keyStatsSpec data k)) ∧
    get_group_stats [[(("a" : String), JVal.num 1)], [(("a" : String), JVal.null)],
        [(("a" : String), JVal.num 3)]]
      = some (3, [(("a" : String), ⟨2, 2⟩)]) := by
  constructor
  · intro data hex
    have hne : data ≠ [] := by
      rintro rfl
      simp at hex
    have hfs : (data.find? (fun it => !it.isEmpty)).isSome = true := by
      rw [List.find?_isSome]
      obtain ⟨it, hmem, hit⟩ := hex
      refine ⟨it, hmem, ?_⟩
      simp [List.isEmpty_iff, hit]
    obtain ⟨first, hfirst⟩ := Option.isSome_iff_exists.mp hfs
    refine ⟨((first.map Prod.fst).filter (fun k => !(startsWithUnderscore k))).map
      (fun k0 => (k0, keyStatsSpec data k0)), ?_, ?_⟩
    · rw [get_group_stats,
        if_neg (show ¬(data.isEmpty = true) by simp [List.isEmpty_iff, hne])]
      simp only [hfirst]
      congr 1
      congr 1
      apply List.map_congr_left
      intro k hk
      dsimp only
      rw [foldl_collect_eq k data []]
      rw [List.nil_append]
      by_cases hv : collectVals data k = []
      · rw [keyStatsSpec, if_pos hv, hv]
        simp
      · rw [keyStatsSpec, if_neg hv,
          if_pos (List.length_pos.mpr hv)]
    · intro k hk
      rw [candidateKeys, hfirst] at hk
      exact lookup_map_self (fun k0 => keyStatsSpec data k0) _ k hk
  · have hsa : startsWithUnderscore ("a") = false := by decide
    norm_num [get_group_stats, meanQ, List.lookup, List.find?, hsa,
      List.filter_cons, List.filter_nil, List.map_cons, List.map_nil,
      beq_self_eq_true]

/-- C7 amended witness: the general part applied to a concrete two-item
batch (one empty mapping, one with key `b`). -/
theorem group_stats_amended_witness :
    ∃ l, get_group_stats [[(("b" : String), JVal.num 4)], ([] : Item)] = some (2, l) ∧
      ∀ k ∈ candidateKeys [[(("b" : String), JVal.num 4)], ([] : Item)],
        List.lookup k l
          = some (keyStatsSpec [[(("b" : String), JVal.num 4)], ([] : Item)] k) :=
  group_stats_amended.1 _ ⟨[(("b" : String), JVal.num 4)], by simp, by simp⟩

end ECC
